import Mathlib

/-
  Verification of the Convex-style temporal document store from the beads
  repository (package `internal/storage/convex`).

  The Go source is shallowly embedded: SQLite tables become Lean lists of
  rows, SQL queries become explicit list pipelines that mirror each query's
  WHERE / ORDER BY / LIMIT clauses, transactions become `Except`-valued
  functions whose error branch discards the candidate state (rollback), and
  Go `int64` arithmetic is `Int` with explicit two's-complement wraparound
  where overflow can occur.
-/

namespace Beads

/-! ### Timestamps (types.go: `Timestamp`, `TimestampRange`) -/

/-- MaxTimestamp from types.go: `Timestamp(1<<63 - 1)`, the largest int64. -/
def maxTimestampTS : Int := 2 ^ 63 - 1

/-- Two's-complement wraparound of a mathematical integer into the int64
range, as Go's defined signed-overflow behaviour produces. -/
def int64wrap (x : Int) : Int := (x + 2 ^ 63) % 2 ^ 64 - 2 ^ 63

/-- TimestampRange from types.go: inclusive `Start` and `End` bounds
(the Go field `End` is named `stop` here because `end` is reserved). -/
structure TimestampRange where
  start : Int
  stop : Int
deriving Repr, DecidableEq

/-- AllTime from types.go: `TimestampRange{Start: 0, End: MaxTimestamp}`. -/
def AllTime : TimestampRange := ⟨0, maxTimestampTS⟩

/-- AtOrBefore from types.go. -/
def AtOrBefore (ts : Int) : TimestampRange := ⟨0, ts⟩

/-- After from types.go: `TimestampRange{Start: ts + 1, End: MaxTimestamp}`.
The Go addition `ts + 1` is int64 arithmetic, hence the explicit wrap. -/
def After (ts : Int) : TimestampRange := ⟨int64wrap (ts + 1), maxTimestampTS⟩

/-- Contains from types.go: `ts >= r.Start && ts <= r.End`. -/
def TimestampRange.Contains (r : TimestampRange) (ts : Int) : Bool :=
  decide (r.start ≤ ts) && decide (ts ≤ r.stop)

/-! ### Byte strings and key intervals (types.go: `Interval`, `Prefix`) -/

/-- Strict lexicographic (memcmp-style) order on byte strings, exactly the
comparison SQLite applies to BLOB values: compare byte by byte, and a
proper leading fragment of a longer string sorts first. -/
def bytesLt : List Nat → List Nat → Bool
  | _, [] => false
  | [], _ :: _ => true
  | a :: as, b :: bs => if a < b then true else if b < a then false else bytesLt as bs

/-- Non-strict byte-string order derived from `bytesLt`. -/
def bytesLe (a b : List Nat) : Bool := !(bytesLt b a)

/-- Interval from types.go: inclusive `Start`, exclusive `End`; `none`
means unbounded on that side (the Go field `End` is named `stop` here). -/
structure Interval where
  start : Option (List Nat)
  stop : Option (List Nat)
deriving Repr, DecidableEq

/-- All from types.go: `Interval{}` — both bounds unbounded. -/
def AllKeys : Interval := ⟨none, none⟩

/-- Computes the exclusive upper bound produced by `Prefix` in types.go:
scan right-to-left; at the first byte `< 0xFF`, keep the bytes to its left,
increment it, and drop everything to its right (`end[:i+1]`); if every byte
is `0xFF` there is no upper bound (`none`). -/
def succBytes : List Nat → Option (List Nat)
  | [] => none
  | b :: rest =>
    match succBytes rest with
    | some s => some (b :: s)
    | none => if b < 255 then some [b + 1] else none

/-- Prefix from types.go (renamed to avoid a reserved word): the interval
matching all keys with the given leading bytes; empty input yields the
all-keys interval. -/
def PrefixInterval (p : List Nat) : Interval :=
  if p = [] then AllKeys else ⟨some p, succBytes p⟩

/-- Membership of a key in an interval, exactly as the SQL in
IndexScanQuery tests it: `key >= start` (with a nil start treated as the
empty byte string, per sqlite.go IndexScan) and `end IS NULL OR key < end`. -/
def inInterval (intv : Interval) (k : List Nat) : Bool :=
  bytesLe (intv.start.getD []) k &&
    (match intv.stop with
     | none => true
     | some e => bytesLt k e)

/-! ### Row types (types.go) and the persisted state (schema.go) -/

/-- DocumentLogEntry from types.go. `value = none` models a nil
`json.RawMessage` / SQL NULL `json_value`. -/
structure DocumentLogEntry where
  ts : Int
  id : String
  tableID : String
  value : Option String
  deleted : Bool
  prevTS : Option Int
deriving Repr, DecidableEq

/-- IsDeleted from types.go: `d.Deleted || d.Value == nil`. -/
def DocumentLogEntry.IsDeleted (d : DocumentLogEntry) : Bool :=
  d.deleted || d.value.isNone

/-- IndexEntry from types.go. -/
structure IndexEntry where
  indexID : String
  ts : Int
  key : List Nat
  deleted : Bool
  tableID : String
  documentID : String
deriving Repr, DecidableEq

/-- The persisted state: the three tables created by `Schema` in
schema.go — `documents`, `indexes`, and `persistence_globals`. -/
structure State where
  documents : List DocumentLogEntry
  indexes : List IndexEntry
  globals : List (String × String)
deriving Repr, DecidableEq

/-- Order from types.go. -/
inductive Order where
  | Asc
  | Desc
deriving Repr, DecidableEq

/-- The `documents` primary key `(ts, table_id, id)` of schema.go: the
state is well formed when no two distinct rows share it. SQLite enforces
this invariant on every state reachable through `Write`. -/
def WFDocs (σ : State) : Prop :=
  σ.documents.Pairwise (fun a b => ¬(a.ts = b.ts ∧ a.tableID = b.tableID ∧ a.id = b.id))

/-! ### Row selection helpers shared by the read queries -/

/-- One comparison step of the max-`ts` selection. -/
def pickMaxStep (ts : α → Int) (acc : Option α) (d : α) : Option α :=
  match acc with
  | none => some d
  | some b => if ts b < ts d then some d else some b

/-- Picks the element with the largest `ts` projection, the list-level
meaning of SQL `ORDER BY ts DESC LIMIT 1` (first element wins a tie; the
primary keys make ties impossible on well-formed states). -/
def pickMaxBy (ts : α → Int) (l : List α) : Option α :=
  l.foldl (pickMaxStep ts) none

/-! ### Reads (sqlite.go + the SQL constants of schema.go) -/

/-- The row set of LatestDocumentAtTSQuery's WHERE clause in schema.go:
all versions of `(table_id, id)` with `ts ≤ t`, tombstones included. -/
def docVersionsAt (σ : State) (tableID docID : String) (t : Int) :
    List DocumentLogEntry :=
  σ.documents.filter fun d =>
    decide (d.tableID = tableID) && decide (d.id = docID) && decide (d.ts ≤ t)

/-- The row set of LatestDocumentQuery's WHERE clause in schema.go: all
non-deleted versions of `(table_id, id)`, with no timestamp bound. -/
def liveVersions (σ : State) (tableID docID : String) : List DocumentLogEntry :=
  σ.documents.filter fun d =>
    decide (d.tableID = tableID) && decide (d.id = docID) && !d.deleted

/-- GetDocument from sqlite.go. With `atTS` present it runs
LatestDocumentAtTSQuery — the max-`ts` row of `(table_id, id)` with
`ts ≤ atTS`, tombstones included — and then maps a row whose `deleted`
flag is set to "not found". With `atTS` absent it runs LatestDocumentQuery,
which filters `deleted = 0` inside SQL and has no timestamp bound at all. -/
def GetDocument (σ : State) (tableID docID : String) (atTS : Option Int) :
    Option DocumentLogEntry :=
  match atTS with
  | some t =>
    match pickMaxBy (·.ts) (docVersionsAt σ tableID docID t) with
    | none => none
    | some d => if d.deleted then none else some d
  | none => pickMaxBy (·.ts) (liveVersions σ tableID docID)

/-- The correlated subquery shared by IndexScanQuery and IndexGetQuery in
schema.go: the document row whose `ts` equals
`MAX(ts) WHERE table_id = ? AND id = ? AND ts <= readTS AND deleted = 0` —
i.e. the latest NON-deleted version at or before `readTS` (the subquery
excludes tombstones before taking the maximum). -/
def latestLiveDoc (σ : State) (tableID docID : String) (readTS : Int) :
    Option DocumentLogEntry :=
  pickMaxBy (·.ts)
    (σ.documents.filter fun d =>
      decide (d.tableID = tableID) && decide (d.id = docID) &&
        decide (d.ts ≤ readTS) && !d.deleted)

/-- The rows of the `latest_index` CTE of IndexScanQuery before the
row-number cut: index rows with the given `index_id`, key inside the
interval, and `ts ≤ readTS`. -/
def matchingIdx (σ : State) (indexID : String) (intv : Interval) (readTS : Int) :
    List IndexEntry :=
  σ.indexes.filter fun e =>
    decide (e.indexID = indexID) && inInterval intv e.key && decide (e.ts ≤ readTS)

/-- The `rn = 1` row of the CTE for one key: the matching entry with the
largest `ts` (`ROW_NUMBER() OVER (PARTITION BY index_id, key ORDER BY ts
DESC)`). -/
def winnerFor (l : List IndexEntry) (k : List Nat) : Option IndexEntry :=
  pickMaxBy (·.ts) (l.filter fun e => decide (e.key = k))

/-- An intermediate row of the index-scan pipeline: a surviving key
together with the document the join resolved for it. -/
structure ScanRow where
  key : List Nat
  doc : DocumentLogEntry
deriving Repr, DecidableEq

/-- The unsorted result rows of IndexScanQuery: one row per distinct
matching key whose winning entry is not tombstoned and whose back-pointer
resolves through `latestLiveDoc`. -/
def scanRows (σ : State) (indexID : String) (intv : Interval) (readTS : Int) :
    List ScanRow :=
  ((matchingIdx σ indexID intv readTS).map (·.key)).dedup.filterMap fun k =>
    match winnerFor (matchingIdx σ indexID intv readTS) k with
    | none => none
    | some w =>
      if w.deleted then none
      else
        match latestLiveDoc σ w.tableID w.documentID readTS with
        | none => none
        | some d => some ⟨k, d⟩

/-- Key comparison realising `ORDER BY i.key ASC` / `DESC`. -/
def keyLeOrd : Order → List Nat → List Nat → Bool
  | .Asc, a, b => bytesLe a b
  | .Desc, a, b => bytesLe b a

/-- Insertion step of the sort standing in for `ORDER BY i.key`. -/
def insertRow (o : Order) (x : ScanRow) : List ScanRow → List ScanRow
  | [] => [x]
  | y :: ys => if keyLeOrd o x.key y.key then x :: y :: ys else y :: insertRow o x ys

/-- Sorts the surviving rows by key in the requested direction. -/
def sortRows (o : Order) (l : List ScanRow) : List ScanRow :=
  l.foldr (insertRow o) []

/-- IndexResult from types.go: the matched key and the referenced
document. -/
structure IndexResult where
  key : List Nat
  document : Option DocumentLogEntry
deriving Repr, DecidableEq

/-- IndexScan from sqlite.go: run IndexScanQuery (filter, per-key winner,
tombstone drop, document join, order by key, limit) and build one
IndexResult per returned row. The Go loop constructs
`IndexResult{Document: &doc}`, leaving `Key` at its zero value (nil), so
the key column is not propagated into the result. -/
def IndexScan (σ : State) (indexID : String) (intv : Interval) (readTS : Int)
    (o : Order) (lim : Nat) : List IndexResult :=
  ((sortRows o (scanRows σ indexID intv readTS)).take lim).map fun row =>
    { key := [], document := some row.doc }

/-- IndexScan's entry point substitutes the current time for a zero
`readTS` (sqlite.go: `if readTS == 0 { readTS = Now() }`). -/
def IndexScanAPI (σ : State) (indexID : String) (intv : Interval) (readTS : Int)
    (o : Order) (lim : Nat) (now : Int) : List IndexResult :=
  IndexScan σ indexID intv (if readTS = 0 then now else readTS) o lim

/-- IndexGet from sqlite.go / IndexGetQuery in schema.go: the latest
matching index entry for the exact key at `readTS`; if it is not
tombstoned, resolve the back-pointer through the same latest-non-deleted
subquery as the scan. -/
def IndexGet (σ : State) (indexID : String) (key : List Nat) (readTS : Int) :
    Option DocumentLogEntry :=
  match pickMaxBy (·.ts)
      (σ.indexes.filter fun e =>
        decide (e.indexID = indexID) && decide (e.key = key) && decide (e.ts ≤ readTS)) with
  | none => none
  | some w =>
    if w.deleted then none
    else latestLiveDoc σ w.tableID w.documentID readTS

/-! ### Writes (sqlite.go `Write`, `WriteGlobal`; schema.go insert queries) -/

/-- Primary-key collision test for `documents` (`PRIMARY KEY (ts,
table_id, id)`). -/
def samePKDoc (e d : DocumentLogEntry) : Bool :=
  decide (e.ts = d.ts) && decide (e.tableID = d.tableID) && decide (e.id = d.id)

/-- Primary-key collision test for `indexes` (`PRIMARY KEY (index_id, key,
ts)`). -/
def samePKIdx (e x : IndexEntry) : Bool :=
  decide (e.indexID = x.indexID) && decide (e.key = x.key) && decide (e.ts = x.ts)

/-- The SQLite error surfaced when InsertDocumentQuery hits the documents
primary key. -/
def docPKViolation : String :=
  "UNIQUE constraint failed: documents.ts, documents.table_id, documents.id"

/-- The SQLite error surfaced when InsertIndexQuery hits the indexes
primary key. -/
def idxPKViolation : String :=
  "UNIQUE constraint failed: indexes.index_id, indexes.key, indexes.ts"

/-- The prepared-statement loop inside the transaction: insert each row in
order; SQLite rejects a row whose primary key already appears among the
rows visible to the transaction (persisted rows plus rows inserted earlier
in the same batch), aborting the loop. -/
def insertAll (dup : α → α → Bool) (msg : String) (acc : List α) :
    List α → Except String (List α)
  | [] => Except.ok acc
  | x :: l =>
    if acc.any (fun e => dup e x) then Except.error msg
    else insertAll dup msg (acc ++ [x]) l

/-- Write from sqlite.go: inside one transaction, insert every document
via InsertDocumentQuery and every index entry via InsertIndexQuery; any
failure rolls the whole transaction back (the error branch carries no
state), and only a full success commits the new state. -/
def Write (σ : State) (documents : List DocumentLogEntry) (indexes : List IndexEntry) :
    Except String State := do
  let ds ← insertAll samePKDoc docPKViolation σ.documents documents
  let is ← insertAll samePKIdx idxPKViolation σ.indexes indexes
  Except.ok { σ with documents := ds, indexes := is }

/-- The state visible to readers after a `Write` call: the committed state
on success, the untouched previous state after a rollback. -/
def applyWrite (σ : State) (documents : List DocumentLogEntry) (indexes : List IndexEntry) :
    State :=
  match Write σ documents indexes with
  | Except.ok σ' => σ'
  | Except.error _ => σ

/-- SetGlobalQuery from schema.go: `INSERT OR REPLACE` into
`persistence_globals`. -/
def setGlobal (σ : State) (k v : String) : State :=
  { σ with globals := σ.globals.filter (fun kv => !decide (kv.1 = k)) ++ [(k, v)] }

/-- GetGlobalQuery from schema.go: point lookup in `persistence_globals`,
absence reported as `none` (sql.ErrNoRows → nil in sqlite.go GetGlobal). -/
def getGlobal (σ : State) (k : String) : Option String :=
  (σ.globals.find? fun kv => decide (kv.1 = k)).map (·.2)

/-! ### Store opening (sqlite.go `NewSQLitePersistence`, schema.go
`SchemaVersion`) -/

/-- SchemaVersion from schema.go. -/
def SchemaVersion : Nat := 1

/-- A store file with freshly created empty tables (`Schema` executed). -/
def emptyState : State := ⟨[], [], []⟩

/-- The outcome of opening a store: the resulting state and the `fresh`
flag reported through `IsFresh`. -/
structure OpenResult where
  state : State
  fresh : Bool
deriving Repr, DecidableEq

/-- NewSQLitePersistence from sqlite.go, abstracted over the backing file:
`none` models a path whose file does not exist. On a fresh file it runs
`Schema` and stamps `schema_version` (JSON-encoded) into the globals; on
an existing file it performs no initialisation of any kind — in
particular it never reads or compares the stored `schema_version`. -/
def NewSQLitePersistence (file : Option State) : Except String OpenResult :=
  match file with
  | none =>
    Except.ok ⟨setGlobal emptyState "schema_version" (toString SchemaVersion), true⟩
  | some σ => Except.ok ⟨σ, false⟩

/-! ### Index key generation (indexes.go `PriorityIndexKey`) -/

/-- PriorityIndexKey from the index generator: `uint16(priority)` keeps the
low 16 bits of the Go int (two's complement, i.e. the value mod 2^16),
`binary.BigEndian.PutUint16` splits it into high and low bytes, and a
`0x00` sentinel is appended. -/
def PriorityIndexKey (priority : Int) : List Nat :=
  [((priority % 65536).toNat / 256) % 256, (priority % 65536).toNat % 256, 0]

/-! ## Supporting lemmas -/

/-- Wrapping is the identity on values already inside the int64 range. -/
theorem int64wrap_eq_self {x : Int} (h1 : -(2 ^ 63) ≤ x) (h2 : x < 2 ^ 63) :
    int64wrap x = x := by
  unfold int64wrap
  have h0 : 0 ≤ x + 2 ^ 63 := by omega
  have hlt : x + 2 ^ 63 < 2 ^ 64 := by omega
  rw [Int.emod_eq_of_lt h0 hlt]
  omega

/-- Folding the max-selection step from a `some` seed yields an element
that is either the seed or drawn from the list and whose `ts` dominates
both the seed and every list element. -/
theorem pickMaxBy_go (ts : α → Int) (l : List α) (b : α) :
    ∃ d, List.foldl (pickMaxStep ts) (some b) l = some d ∧
      (d = b ∨ d ∈ l) ∧ ts b ≤ ts d ∧ ∀ x ∈ l, ts x ≤ ts d := by
  induction l generalizing b with
  | nil => exact ⟨b, rfl, Or.inl rfl, le_refl _, by simp⟩
  | cons x xs ih =>
    rw [List.foldl_cons]
    by_cases h : ts b < ts x
    · obtain ⟨d, hfold, hmem, hle, hall⟩ := ih x
      refine ⟨d, ?_, ?_, ?_, ?_⟩
      · simpa [pickMaxStep, h] using hfold
      · rcases hmem with rfl | hm
        · exact Or.inr (List.mem_cons_self _ _)
        · exact Or.inr (List.mem_cons_of_mem _ hm)
      · exact le_trans (le_of_lt h) hle
      · intro y hy
        rcases List.mem_cons.mp hy with rfl | hy'
        · exact hle
        · exact hall y hy'
    · obtain ⟨d, hfold, hmem, hle, hall⟩ := ih b
      refine ⟨d, ?_, ?_, ?_, ?_⟩
      · simpa [pickMaxStep, h] using hfold
      · rcases hmem with rfl | hm
        · exact Or.inl rfl
        · exact Or.inr (List.mem_cons_of_mem _ hm)
      · exact hle
      · intro y hy
        rcases List.mem_cons.mp hy with rfl | hy'
        · exact le_trans (not_lt.mp h) hle
        · exact hall y hy'

/-- `pickMaxBy` on a non-empty list returns a member whose `ts` dominates
the whole list; on the empty list it returns `none`. -/
theorem pickMaxBy_spec (ts : α → Int) (l : List α) :
    (pickMaxBy ts l = none ∧ l = []) ∨
      ∃ d, pickMaxBy ts l = some d ∧ d ∈ l ∧ ∀ x ∈ l, ts x ≤ ts d := by
  cases l with
  | nil => exact Or.inl ⟨rfl, rfl⟩
  | cons x xs =>
    obtain ⟨d, hfold, hmem, hle, hall⟩ := pickMaxBy_go ts xs x
    refine Or.inr ⟨d, ?_, ?_, ?_⟩
    · simpa [pickMaxBy, pickMaxStep] using hfold
    · rcases hmem with rfl | hm
      · exact List.mem_cons_self _ _
      · exact List.mem_cons_of_mem _ hm
    · intro y hy
      rcases List.mem_cons.mp hy with rfl | hy'
      · exact hle
      · exact hall y hy'

/-- A `some` answer of `pickMaxBy` is a member of the list. -/
theorem pickMaxBy_mem {ts : α → Int} {l : List α} {d : α}
    (h : pickMaxBy ts l = some d) : d ∈ l := by
  rcases pickMaxBy_spec ts l with ⟨hn, -⟩ | ⟨d', hd', hm, -⟩
  · rw [h] at hn; cases hn
  · rw [h] at hd'; cases hd'; exact hm

/-- A `some` answer of `pickMaxBy` dominates every member's `ts`. -/
theorem pickMaxBy_max {ts : α → Int} {l : List α} {d : α}
    (h : pickMaxBy ts l = some d) : ∀ x ∈ l, ts x ≤ ts d := by
  rcases pickMaxBy_spec ts l with ⟨hn, -⟩ | ⟨d', hd', -, hall⟩
  · rw [h] at hn; cases hn
  · rw [h] at hd'; cases hd'; exact hall

/-- When a member `d` dominates the list and no other member ties its
`ts`, `pickMaxBy` returns exactly `d`. -/
theorem pickMaxBy_unique {ts : α → Int} {l : List α} {d : α}
    (hd : d ∈ l) (hmax : ∀ x ∈ l, ts x ≤ ts d)
    (huniq : ∀ x ∈ l, ts x = ts d → x = d) : pickMaxBy ts l = some d := by
  rcases pickMaxBy_spec ts l with ⟨-, hnil⟩ | ⟨m, hm, hmem, hall⟩
  · subst hnil; cases hd
  · have h1 : ts m ≤ ts d := hmax m hmem
    have h2 : ts d ≤ ts m := hall d hd
    have : m = d := huniq m hmem (le_antisymm h1 h2)
    rw [hm, this]

/-- Head/tail characterisation of the strict byte order. -/
theorem bytesLt_cons_iff {x y : Nat} {as bs : List Nat} :
    bytesLt (x :: as) (y :: bs) = true ↔ x < y ∨ (x = y ∧ bytesLt as bs = true) := by
  simp only [bytesLt]
  split_ifs with h1 h2
  · simp [h1]
  · constructor
    · intro h; cases h
    · rintro (h | ⟨h, -⟩) <;> omega
  · simp [show x = y by omega]

/-- Strict byte order is asymmetric. -/
theorem bytesLt_asymm : ∀ {a b : List Nat}, bytesLt a b = true → bytesLt b a = false := by
  intro a
  induction a with
  | nil => intro b h; cases b <;> rfl
  | cons x as ih =>
    intro b h
    cases b with
    | nil => cases h
    | cons y bs =>
      rw [Bool.eq_false_iff]
      intro hba
      rcases bytesLt_cons_iff.mp h with h1 | ⟨h1, h2⟩ <;>
        rcases bytesLt_cons_iff.mp hba with g1 | ⟨g1, g2⟩ <;> try omega
      rw [ih h2] at g2
      cases g2

/-- Strict byte order is linear: anything below `a` is below `b` or `b`
lies below `a`. -/
theorem bytesLt_linear : ∀ (c a b : List Nat), bytesLt c a = true →
    bytesLt c b = true ∨ bytesLt b a = true := by
  intro c
  induction c with
  | nil =>
    intro a b h
    cases a with
    | nil => cases h
    | cons y as =>
      cases b with
      | nil => exact Or.inr rfl
      | cons z bs => exact Or.inl rfl
  | cons x cs ih =>
    intro a b h
    cases a with
    | nil => cases h
    | cons y as =>
      cases b with
      | nil => exact Or.inr rfl
      | cons z bs =>
        rcases bytesLt_cons_iff.mp h with hxy | ⟨hxy, hrest⟩
        · by_cases hxz : x < z
          · exact Or.inl (bytesLt_cons_iff.mpr (Or.inl hxz))
          · exact Or.inr (bytesLt_cons_iff.mpr (Or.inl (by omega)))
        · by_cases hxz : x < z
          · exact Or.inl (bytesLt_cons_iff.mpr (Or.inl hxz))
          · by_cases hzx : z < x
            · exact Or.inr (bytesLt_cons_iff.mpr (Or.inl (by omega)))
            · rcases ih as bs hrest with h' | h'
              · exact Or.inl (bytesLt_cons_iff.mpr (Or.inr ⟨by omega, h'⟩))
              · exact Or.inr (bytesLt_cons_iff.mpr (Or.inr ⟨by omega, h'⟩))

/-- Non-strict byte order is total. -/
theorem bytesLe_total (a b : List Nat) : bytesLe a b = true ∨ bytesLe b a = true := by
  cases h : bytesLt b a
  · left
    simp [bytesLe, h]
  · right
    simp [bytesLe, bytesLt_asymm h]

/-- Non-strict byte order is transitive. -/
theorem bytesLe_trans {a b c : List Nat}
    (h1 : bytesLe a b = true) (h2 : bytesLe b c = true) : bytesLe a c = true := by
  simp only [bytesLe, Bool.not_eq_true'] at h1 h2 ⊢
  cases hca : bytesLt c a
  · rfl
  · rcases bytesLt_linear c a b hca with h' | h'
    · rw [h'] at h2; cases h2
    · rw [h'] at h1; cases h1

/-- Nothing is strictly below the empty byte string. -/
theorem bytesLt_nil_right (a : List Nat) : bytesLt a [] = false := by
  cases a <;> rfl

/-- The empty byte string is below everything. -/
theorem bytesLe_nil_left (s : List Nat) : bytesLe [] s = true := by
  simp [bytesLe, bytesLt_nil_right]

/-- Head/tail characterisation of the non-strict byte order. -/
theorem bytesLe_cons_iff {x y : Nat} {as bs : List Nat} :
    bytesLe (x :: as) (y :: bs) = true ↔ x < y ∨ (x = y ∧ bytesLe as bs = true) := by
  simp only [bytesLe, Bool.not_eq_true']
  constructor
  · intro h
    by_cases hxy : x < y
    · exact Or.inl hxy
    · by_cases hyx : y < x
      · rw [bytesLt_cons_iff.mpr (Or.inl hyx)] at h
        cases h
      · refine Or.inr ⟨by omega, ?_⟩
        cases hba : bytesLt bs as
        · rfl
        · rw [bytesLt_cons_iff.mpr (Or.inr ⟨by omega, hba⟩)] at h
          cases h
  · intro h
    rw [Bool.eq_false_iff]
    intro hlt
    rcases bytesLt_cons_iff.mp hlt with h1 | ⟨h1, h2⟩
    · rcases h with h' | ⟨h', -⟩ <;> omega
    · rcases h with h' | ⟨h', h3⟩
      · omega
      · rw [h2] at h3
        cases h3

/-- The exclusive upper-bound test of `inInterval`, as a function of the
computed successor. -/
def belowStop : Option (List Nat) → List Nat → Bool
  | none, _ => true
  | some e, k => bytesLt k e

/-- The interval `[p, succBytes p)` contains exactly the byte strings that
extend `p`, for any non-empty `p` of genuine bytes (each ≤ 0xFF). -/
theorem succBytes_spec :
    ∀ p s : List Nat, p ≠ [] → (∀ x ∈ p, x ≤ 255) → (∀ x ∈ s, x ≤ 255) →
      ((bytesLe p s && belowStop (succBytes p) s) = true ↔ ∃ t, s = p ++ t) := by
  intro p
  induction p with
  | nil => intro s h _ _; exact absurd rfl h
  | cons b p' ih =>
    intro s _ hp hs
    have hb : b ≤ 255 := hp b (List.mem_cons_self _ _)
    have hp' : ∀ x ∈ p', x ≤ 255 := fun x hx => hp x (List.mem_cons_of_mem _ hx)
    cases s with
    | nil =>
      rw [Bool.and_eq_true]
      constructor
      · rintro ⟨h1, -⟩
        rw [show bytesLe (b :: p') [] = false from by simp [bytesLe, bytesLt]] at h1
        cases h1
      · rintro ⟨t, ht⟩
        cases ht
    | cons a t' =>
      have ha : a ≤ 255 := hs a (List.mem_cons_self _ _)
      have hs' : ∀ x ∈ t', x ≤ 255 := fun x hx => hs x (List.mem_cons_of_mem _ hx)
      have hrhs : (∃ t, a :: t' = b :: (p' ++ t)) ↔ a = b ∧ ∃ t, t' = p' ++ t := by
        constructor
        · rintro ⟨t, ht⟩
          injection ht with h1 h2
          exact ⟨h1, t, h2⟩
        · rintro ⟨h1, t, h2⟩
          exact ⟨t, by rw [h1, h2]⟩
      simp only [List.cons_append] at *
      rw [hrhs]
      cases p' with
      | nil =>
        by_cases hblt : b < 255
        · simp only [succBytes, if_pos hblt, belowStop, Bool.and_eq_true,
            bytesLe_cons_iff, bytesLt_cons_iff, bytesLt_nil_right, bytesLe_nil_left,
            Bool.false_eq_true, and_false, or_false, and_true, List.nil_append,
            eq_self_iff_true]
          constructor
          · rintro ⟨h1, h2⟩
            have hab : a = b := by
              rcases h1 with h | h <;> omega
            exact ⟨hab, t', rfl⟩
          · rintro ⟨h1, -⟩
            exact ⟨Or.inr h1.symm, by omega⟩
        · simp only [succBytes, if_neg hblt, belowStop, Bool.and_eq_true,
            bytesLe_cons_iff, bytesLe_nil_left, and_true, List.nil_append,
            eq_self_iff_true]
          constructor
          · intro h
            rcases h with h | h
            · exact absurd h (by omega)
            · exact ⟨h.symm, t', rfl⟩
          · rintro ⟨h1, -⟩
            exact Or.inr h1.symm
      | cons c cs =>
        have hne' : (c :: cs) ≠ [] := by simp
        have ihs := ih t' hne' hp' hs'
        rw [← ihs]
        cases hq : succBytes (c :: cs) with
        | some q =>
          have hsucc : succBytes (b :: c :: cs) = some (b :: q) := by
            rw [show succBytes (b :: c :: cs) =
              (match succBytes (c :: cs) with
               | some s => some (b :: s)
               | none => if b < 255 then some [b + 1] else none) from rfl, hq]
          rw [hsucc]
          simp only [belowStop, Bool.and_eq_true, bytesLe_cons_iff, bytesLt_cons_iff]
          constructor
          · rintro ⟨h1 | ⟨h1, h2⟩, h3 | ⟨h3, h4⟩⟩
            · omega
            · omega
            · omega
            · exact ⟨h3, h2, h4⟩
          · rintro ⟨h1, h2, h3⟩
            exact ⟨Or.inr ⟨h1.symm, h2⟩, Or.inr ⟨h1, h3⟩⟩
        | none =>
          by_cases hblt : b < 255
          · have hsucc : succBytes (b :: c :: cs) = some [b + 1] := by
              rw [show succBytes (b :: c :: cs) =
                (match succBytes (c :: cs) with
                 | some s => some (b :: s)
                 | none => if b < 255 then some [b + 1] else none) from rfl, hq,
                if_pos hblt]
            rw [hsucc]
            simp only [belowStop, Bool.and_eq_true, bytesLe_cons_iff,
              bytesLt_cons_iff, bytesLt_nil_right, Bool.false_eq_true, and_false,
              or_false, and_true, eq_self_iff_true]
            constructor
            · rintro ⟨h1 | ⟨h1, h2⟩, h3⟩
              · omega
              · exact ⟨by omega, h2⟩
            · rintro ⟨h1, h2⟩
              exact ⟨Or.inr ⟨h1.symm, h2⟩, by omega⟩
          · have hsucc : succBytes (b :: c :: cs) = none := by
              rw [show succBytes (b :: c :: cs) =
                (match succBytes (c :: cs) with
                 | some s => some (b :: s)
                 | none => if b < 255 then some [b + 1] else none) from rfl, hq,
                if_neg hblt]
            rw [hsucc]
            simp only [belowStop, Bool.and_eq_true, bytesLe_cons_iff, and_true,
              eq_self_iff_true]
            constructor
            · intro h
              rcases h with h1 | ⟨h1, h2⟩
              · exact absurd h1 (by omega)
              · exact ⟨h1.symm, h2⟩
            · rintro ⟨h1, h2⟩
              exact Or.inr ⟨h1.symm, h2⟩

/-! ## Claims -/

/-- C8 (amended): `r.Contains ts` holds exactly when `r.Start ≤ ts ≤ r.End`
(inclusive on both ends), and `After(t)` excludes `t` itself for every
int64 timestamp `t` strictly below MaxTimestamp; at `t = MaxTimestamp`
the Go increment `t + 1` wraps around to the most negative int64, so
`After(MaxTimestamp).Contains(MaxTimestamp)` is true. -/
theorem claim_C8 :
    (∀ (r : TimestampRange) (ts : Int),
      r.Contains ts = true ↔ r.start ≤ ts ∧ ts ≤ r.stop) ∧
    (∀ t : Int, -(2 ^ 63) ≤ t → t < maxTimestampTS → (After t).Contains t = false) ∧
    (After maxTimestampTS).Contains maxTimestampTS = true := by
  refine ⟨?_, ?_, ?_⟩
  · intro r ts
    simp [TimestampRange.Contains]
  · intro t h1 h2
    have hw : int64wrap (t + 1) = t + 1 := by
      apply int64wrap_eq_self <;> simp [maxTimestampTS] at * <;> omega
    simp [After, TimestampRange.Contains, hw]
  · decide

/-- C8 witness: the amended theorem applied at range [0, 10] with ts = 5
and at t = 5. -/
theorem claim_C8_witness :
    ((TimestampRange.Contains ⟨0, 10⟩ 5 = true) ↔ (0 : Int) ≤ 5 ∧ (5 : Int) ≤ 10) ∧
    (After 5).Contains 5 = false :=
  ⟨claim_C8.1 ⟨0, 10⟩ 5, claim_C8.2.1 5 (by norm_num) (by norm_num [maxTimestampTS])⟩

/-- C8 counterexample: at `t = MaxTimestamp = 2^63 - 1`, the claim "for
every timestamp t, After(t).Contains(t) is false" fails, because the Go
int64 addition `t + 1` wraps to the minimum int64 value. -/
theorem claim_C8_counterexample :
    (After maxTimestampTS).Contains maxTimestampTS = true := by decide

/-- C10: PriorityIndexKey depends only on the priority's residue mod 2^16
(so 0 and 65536 collide, as do -1 and 65535), and it is injective on
[0, 65535]. -/
theorem claim_C10 :
    (∀ p q : Int, p % 65536 = q % 65536 → PriorityIndexKey p = PriorityIndexKey q) ∧
    (∀ p q : Int, 0 ≤ p → p ≤ 65535 → 0 ≤ q → q ≤ 65535 →
      PriorityIndexKey p = PriorityIndexKey q → p = q) ∧
    PriorityIndexKey 0 = PriorityIndexKey 65536 ∧
    PriorityIndexKey (-1) = PriorityIndexKey 65535 := by
  refine ⟨?_, ?_, by decide, by decide⟩
  · intro p q h
    simp only [PriorityIndexKey, h]
  · intro p q hp0 hp hq0 hq h
    simp only [PriorityIndexKey] at h
    injection h with h1 h
    injection h with h2 h
    omega

/-- C10 witness: the congruence part applied at -1 and 65535. -/
theorem claim_C10_witness : PriorityIndexKey (-1) = PriorityIndexKey 65535 :=
  claim_C10.1 (-1) 65535 (by decide)

/-- C9: an empty batch commits successfully and is a no-op — the state is
returned unchanged, so every subsequent read (documents, index scans and
gets, globals) answers exactly as before the call. -/
theorem claim_C9 :
    ∀ σ : State,
      Write σ [] [] = Except.ok σ ∧
      applyWrite σ [] [] = σ ∧
      (∀ (t i : String) (a : Option Int),
        GetDocument (applyWrite σ [] []) t i a = GetDocument σ t i a) ∧
      (∀ (iid : String) (intv : Interval) (ts : Int) (o : Order) (lim : Nat),
        IndexScan (applyWrite σ [] []) iid intv ts o lim = IndexScan σ iid intv ts o lim) ∧
      (∀ (iid : String) (k : List Nat) (ts : Int),
        IndexGet (applyWrite σ [] []) iid k ts = IndexGet σ iid k ts) ∧
      (∀ k : String, getGlobal (applyWrite σ [] []) k = getGlobal σ k) := by
  intro σ
  have hw : Write σ [] [] = Except.ok σ := rfl
  have ha : applyWrite σ [] [] = σ := by
    simp [applyWrite, hw]
  exact ⟨hw, ha, fun _ _ _ => by rw [ha], fun _ _ _ _ _ => by rw [ha],
    fun _ _ _ => by rw [ha], fun _ => by rw [ha]⟩

/-- A pre-existing store whose stored schema version (2) differs from the
expected `SchemaVersion` (1). -/
def mismatchState : State := ⟨[], [], [("schema_version", "2")]⟩

/-- C3 counterexample: opening an existing store whose stored
`schema_version` is one greater than expected does NOT fail — the code
never reads the stored version on an existing file; it returns the store
unchanged with `fresh = false`. -/
theorem claim_C3_counterexample :
    getGlobal mismatchState "schema_version" = some "2" ∧
    toString SchemaVersion = "1" ∧
    NewSQLitePersistence (some mismatchState) = Except.ok ⟨mismatchState, false⟩ := by
  refine ⟨by decide, by decide, rfl⟩

/-- C3 (amended): opening an existing store performs no schema-version
check at all — it always succeeds with the stored state unchanged and
`fresh = false`, whatever `schema_version` the global KV holds; only a
fresh store gets the schema created and `schema_version` stamped to the
expected value. -/
theorem claim_C3 :
    (∀ σ : State, NewSQLitePersistence (some σ) = Except.ok ⟨σ, false⟩) ∧
    NewSQLitePersistence none =
      Except.ok ⟨setGlobal emptyState "schema_version" "1", true⟩ ∧
    getGlobal (setGlobal emptyState "schema_version" "1") "schema_version" = some "1" := by
  exact ⟨fun _ => rfl, rfl, by decide⟩

/-- Membership in the LatestDocumentAtTSQuery row set, spelled out. -/
theorem mem_docVersionsAt {σ : State} {tableID docID : String} {t : Int}
    {d : DocumentLogEntry} :
    d ∈ docVersionsAt σ tableID docID t ↔
      d ∈ σ.documents ∧ d.tableID = tableID ∧ d.id = docID ∧ d.ts ≤ t := by
  simp [docVersionsAt, List.mem_filter, and_assoc]

/-- Membership in the LatestDocumentQuery row set, spelled out. -/
theorem mem_liveVersions {σ : State} {tableID docID : String}
    {d : DocumentLogEntry} :
    d ∈ liveVersions σ tableID docID ↔
      d ∈ σ.documents ∧ d.tableID = tableID ∧ d.id = docID ∧ d.deleted = false := by
  simp [liveVersions, List.mem_filter, and_assoc]

/-- On a well-formed state the documents primary key determines the row. -/
theorem wf_docs_unique {σ : State} (h : WFDocs σ) {a b : DocumentLogEntry}
    (ha : a ∈ σ.documents) (hb : b ∈ σ.documents)
    (hts : a.ts = b.ts) (htab : a.tableID = b.tableID) (hid : a.id = b.id) :
    a = b := by
  by_contra hne
  have hsym : Symmetric fun x y : DocumentLogEntry =>
      ¬(x.ts = y.ts ∧ x.tableID = y.tableID ∧ x.id = y.id) := by
    intro x y hxy hyx
    exact hxy ⟨hyx.1.symm, hyx.2.1.symm, hyx.2.2.symm⟩
  exact (h.forall hsym) ha hb hne ⟨hts, htab, hid⟩

/-- C1 (amended): on a well-formed store, `get_document` with `at_ts`
present returns exactly the maximum-`ts` version among rows of
`(table_id, id)` with `ts ≤ at_ts` provided its `deleted` flag is clear —
value absence alone is NOT treated as a tombstone — and nothing otherwise;
with `at_ts` absent it ignores tombstones entirely and returns the
maximum-`ts` version among the non-deleted rows, with no timestamp bound,
so a document whose latest version is a tombstone is still reported via
its most recent live version. -/
theorem claim_C1 :
    ∀ σ : State, WFDocs σ → ∀ tableID docID : String,
      (∀ (t : Int) (d : DocumentLogEntry),
        GetDocument σ tableID docID (some t) = some d ↔
          d ∈ σ.documents ∧ d.tableID = tableID ∧ d.id = docID ∧ d.ts ≤ t ∧
            d.deleted = false ∧
            ∀ e ∈ σ.documents, e.tableID = tableID → e.id = docID → e.ts ≤ t →
              e.ts ≤ d.ts) ∧
      (∀ d : DocumentLogEntry,
        GetDocument σ tableID docID none = some d ↔
          d ∈ σ.documents ∧ d.tableID = tableID ∧ d.id = docID ∧ d.deleted = false ∧
            ∀ e ∈ σ.documents, e.tableID = tableID → e.id = docID →
              e.deleted = false → e.ts ≤ d.ts) := by
  intro σ hwf tableID docID
  constructor
  · intro t d
    constructor
    · intro h
      simp only [GetDocument] at h
      cases hp : pickMaxBy (fun x : DocumentLogEntry => x.ts)
          (docVersionsAt σ tableID docID t) with
      | none => rw [hp] at h; cases h
      | some d0 =>
        rw [hp] at h
        by_cases hdel : d0.deleted
        · simp [hdel] at h
        · simp [hdel] at h
          subst h
          obtain ⟨hmem, htab, hid, hts⟩ := mem_docVersionsAt.mp (pickMaxBy_mem hp)
          refine ⟨hmem, htab, hid, hts, Bool.eq_false_iff.mpr hdel, ?_⟩
          intro e he het hei hetts
          exact pickMaxBy_max hp e (mem_docVersionsAt.mpr ⟨he, het, hei, hetts⟩)
    · rintro ⟨hmem, htab, hid, hts, hdel, hmax⟩
      have hd : d ∈ docVersionsAt σ tableID docID t :=
        mem_docVersionsAt.mpr ⟨hmem, htab, hid, hts⟩
      have hp : pickMaxBy (fun x : DocumentLogEntry => x.ts)
          (docVersionsAt σ tableID docID t) = some d := by
        apply pickMaxBy_unique hd
        · intro x hx
          obtain ⟨hx1, hx2, hx3, hx4⟩ := mem_docVersionsAt.mp hx
          exact hmax x hx1 hx2 hx3 hx4
        · intro x hx hxts
          obtain ⟨hx1, hx2, hx3, -⟩ := mem_docVersionsAt.mp hx
          exact wf_docs_unique hwf hx1 hmem hxts (hx2.trans htab.symm)
            (hx3.trans hid.symm)
      simp [GetDocument, hp, hdel]
  · intro d
    constructor
    · intro h
      simp only [GetDocument] at h
      obtain ⟨hmem, htab, hid, hdel⟩ := mem_liveVersions.mp (pickMaxBy_mem h)
      refine ⟨hmem, htab, hid, hdel, ?_⟩
      intro e he het hei hedel
      exact pickMaxBy_max h e (mem_liveVersions.mpr ⟨he, het, hei, hedel⟩)
    · rintro ⟨hmem, htab, hid, hdel, hmax⟩
      have hd : d ∈ liveVersions σ tableID docID :=
        mem_liveVersions.mpr ⟨hmem, htab, hid, hdel⟩
      have hp : pickMaxBy (fun x : DocumentLogEntry => x.ts)
          (liveVersions σ tableID docID) = some d := by
        apply pickMaxBy_unique hd
        · intro x hx
          obtain ⟨hx1, hx2, hx3, hx4⟩ := mem_liveVersions.mp hx
          exact hmax x hx1 hx2 hx3 hx4
        · intro x hx hxts
          obtain ⟨hx1, hx2, hx3, -⟩ := mem_liveVersions.mp hx
          exact wf_docs_unique hwf hx1 hmem hxts (hx2.trans htab.symm)
            (hx3.trans hid.symm)
      simpa [GetDocument] using hp

/-- A live version of document ("issues", "a") at ts 1. -/
def c1Live : DocumentLogEntry := ⟨1, "a", "issues", some "x", false, none⟩

/-- A tombstone for ("issues", "a") at ts 2, shadowing `c1Live`. -/
def c1Tomb : DocumentLogEntry := ⟨2, "a", "issues", none, true, some 1⟩

/-- A row for ("issues", "b") whose value is absent but whose deleted flag
is clear. -/
def c1NilVal : DocumentLogEntry := ⟨5, "b", "issues", none, false, none⟩

/-- A store exhibiting both divergences of claim C1. -/
def c1State : State := ⟨[c1Live, c1Tomb, c1NilVal], [], []⟩

/-- C1 counterexample: (i) for ("issues","a") the maximum-ts version
visible at the current time (any time ≥ 2) is the tombstone at ts 2, so
the claim demands "not found" for a call without `at_ts`, yet GetDocument
returns the older live version — the no-`at_ts` query ignores tombstones;
(ii) the maximum-ts version of ("issues","b") at ts 5 has an absent value,
a tombstone by the claim's definition, yet GetDocument returns it because
only the deleted flag is consulted. -/
theorem claim_C1_counterexample :
    (GetDocument c1State "issues" "a" none = some c1Live ∧
      pickMaxBy (fun x : DocumentLogEntry => x.ts)
        (docVersionsAt c1State "issues" "a" 2) = some c1Tomb ∧
      c1Tomb.deleted = true) ∧
    (GetDocument c1State "issues" "b" (some 5) = some c1NilVal ∧
      c1NilVal.value = none ∧ c1NilVal.deleted = false) := by decide

/-- The insert loop fails with the constraint message whenever some batch
row collides with a row already visible to the transaction. -/
theorem insertAll_error_of_dup (dup : α → α → Bool) (msg : String) :
    ∀ (l acc : List α), (∃ x ∈ l, ∃ e ∈ acc, dup e x = true) →
      insertAll dup msg acc l = Except.error msg := by
  intro l
  induction l with
  | nil =>
    rintro acc ⟨x, hx, -⟩
    cases hx
  | cons y ys ih =>
    rintro acc ⟨x, hx, e, he, hdup⟩
    by_cases hany : acc.any (fun e => dup e y)
    · simp [insertAll, hany]
    · rcases List.mem_cons.mp hx with rfl | hx'
      · exact absurd (List.any_eq_true.mpr ⟨e, he, hdup⟩) hany
      · have hrec : ∃ x ∈ ys, ∃ e ∈ acc ++ [y], dup e x = true :=
          ⟨x, hx', e, List.mem_append_left _ he, hdup⟩
        simp [insertAll, hany, ih _ hrec]

/-- A successful single-row insert appends the row and certifies that no
visible row collides with it. -/
theorem insertAll_single_ok {dup : α → α → Bool} {msg : String} {acc r : List α}
    {d : α} (h : insertAll dup msg acc [d] = Except.ok r) :
    r = acc ++ [d] ∧ ∀ e ∈ acc, dup e d = false := by
  by_cases hany : acc.any (fun e => dup e d)
  · simp [insertAll, hany] at h
  · simp only [insertAll, hany, if_false, Bool.false_eq_true] at h
    refine ⟨(Except.ok.injEq _ _ ▸ h).symm, ?_⟩
    intro e he
    by_contra hne
    exact hany (List.any_eq_true.mpr ⟨e, he, by simpa using hne⟩)

/-- A document-insert failure aborts the whole Write with that error. -/
theorem write_doc_error {σ : State} {docs : List DocumentLogEntry}
    {idxs : List IndexEntry} {msg : String}
    (h : insertAll samePKDoc docPKViolation σ.documents docs = Except.error msg) :
    Write σ docs idxs = Except.error msg := by
  unfold Write
  rw [h]
  rfl

/-- An index-insert failure after a successful document pass also aborts
the whole Write with that error. -/
theorem write_idx_error {σ : State} {docs : List DocumentLogEntry}
    {idxs : List IndexEntry} {ds : List DocumentLogEntry} {msg : String}
    (hds : insertAll samePKDoc docPKViolation σ.documents docs = Except.ok ds)
    (his : insertAll samePKIdx idxPKViolation σ.indexes idxs = Except.error msg) :
    Write σ docs idxs = Except.error msg := by
  unfold Write
  rw [hds]
  show insertAll samePKIdx idxPKViolation σ.indexes idxs >>= _ = Except.error msg
  rw [his]
  rfl

/-- Unpacking a successful one-document Write: the new state appends the
row, the other tables are untouched, and no persisted row shared the
primary key. -/
theorem write_single_doc_ok {σ σ' : State} {d : DocumentLogEntry}
    (h : Write σ [d] [] = Except.ok σ') :
    σ' = ⟨σ.documents ++ [d], σ.indexes, σ.globals⟩ ∧
      ∀ e ∈ σ.documents, samePKDoc e d = false := by
  cases hins : insertAll samePKDoc docPKViolation σ.documents [d] with
  | error m =>
    rw [write_doc_error hins] at h
    cases h
  | ok ds =>
    obtain ⟨rfl, hnd⟩ := insertAll_single_ok hins
    have hw : Write σ [d] [] =
        Except.ok ⟨σ.documents ++ [d], σ.indexes, σ.globals⟩ := by
      unfold Write
      rw [hins]
      rfl
    rw [hw] at h
    cases h
    exact ⟨rfl, hnd⟩

/-- The documents primary-key test, in propositional form. -/
theorem samePKDoc_eq_false {e d : DocumentLogEntry} :
    samePKDoc e d = false ↔ ¬(e.ts = d.ts ∧ e.tableID = d.tableID ∧ e.id = d.id) := by
  rw [← Bool.not_eq_true]
  simp [samePKDoc, and_assoc]

/-- C5: a batch containing a document whose `(ts, table_id, id)` collides
with a persisted row, or an index entry whose `(index_id, key, ts)`
collides with a persisted entry, makes Write fail with a constraint
violation, and the persisted state — hence every subsequent read — is
unchanged: none of the batch rows becomes visible. -/
theorem claim_C5 (σ : State) (docs : List DocumentLogEntry) (idxs : List IndexEntry)
    (h : (∃ d ∈ docs, ∃ e ∈ σ.documents, samePKDoc e d = true) ∨
         (∃ x ∈ idxs, ∃ e ∈ σ.indexes, samePKIdx e x = true)) :
    (∃ msg, Write σ docs idxs = Except.error msg) ∧ applyWrite σ docs idxs = σ := by
  have herr : ∃ msg, Write σ docs idxs = Except.error msg := by
    rcases h with hdoc | hidx
    · exact ⟨docPKViolation, write_doc_error (insertAll_error_of_dup _ _ _ _ hdoc)⟩
    · cases hds : insertAll samePKDoc docPKViolation σ.documents docs with
      | error m => exact ⟨m, write_doc_error hds⟩
      | ok ds =>
        exact ⟨idxPKViolation,
          write_idx_error hds (insertAll_error_of_dup _ _ _ _ hidx)⟩
  obtain ⟨msg, hmsg⟩ := herr
  exact ⟨⟨msg, hmsg⟩, by simp [applyWrite, hmsg]⟩

/-- A persisted row that the C5 witness batch collides with. -/
def c5Existing : DocumentLogEntry := ⟨100, "bd-9", "issues", some "old", false, none⟩

/-- A one-row store for the C5 witness. -/
def c5State : State := ⟨[c5Existing], [], []⟩

/-- A six-row batch whose first row duplicates the persisted
`(ts, table_id, id)` and whose other five rows are valid. -/
def c5Batch : List DocumentLogEntry :=
  [⟨100, "bd-9", "issues", some "dup", false, none⟩,
   ⟨101, "v1", "issues", some "a", false, none⟩,
   ⟨102, "v2", "issues", some "b", false, none⟩,
   ⟨103, "v3", "issues", some "c", false, none⟩,
   ⟨104, "v4", "issues", some "d", false, none⟩,
   ⟨105, "v5", "issues", some "e", false, none⟩]

/-- C5 witness: the theorem applied to the concrete six-row batch with one
duplicated key. -/
theorem claim_C5_witness :
    (∃ msg, Write c5State c5Batch [] = Except.error msg) ∧
      applyWrite c5State c5Batch [] = c5State :=
  claim_C5 c5State c5Batch [] (Or.inl (by decide))

/-- C7: round-trip and tombstone laws. (1) After a successful commit of a
non-tombstone version at `ts = T`, reading at `at_ts = T` returns exactly
that version. (2) After a successful commit of a tombstone at `ts = T`
over a store whose latest version of the document is a live one at
`P < T` (no versions in between), reading at `at_ts = T` returns nothing
and reading at `at_ts = T - 1` returns the pre-tombstone version. -/
theorem claim_C7 :
    (∀ (σ σ' : State) (d : DocumentLogEntry) (T : Int),
      d.deleted = false → d.ts = T →
      Write σ [d] [] = Except.ok σ' →
      GetDocument σ' d.tableID d.id (some T) = some d) ∧
    (∀ (σ σ' : State) (tomb vP : DocumentLogEntry) (T P : Int),
      WFDocs σ →
      tomb.deleted = true → tomb.ts = T →
      vP ∈ σ.documents → vP.tableID = tomb.tableID → vP.id = tomb.id →
      vP.ts = P → vP.deleted = false → P < T →
      (∀ e ∈ σ.documents, e.tableID = tomb.tableID → e.id = tomb.id →
        e.ts ≤ P ∨ T ≤ e.ts) →
      Write σ [tomb] [] = Except.ok σ' →
      GetDocument σ' tomb.tableID tomb.id (some T) = none ∧
        GetDocument σ' tomb.tableID tomb.id (some (T - 1)) = some vP) := by
  constructor
  · intro σ σ' d T hdel hts hw
    obtain ⟨hσ', hnd⟩ := write_single_doc_ok hw
    subst hσ'
    have hd : d ∈ docVersionsAt ⟨σ.documents ++ [d], σ.indexes, σ.globals⟩
        d.tableID d.id T :=
      mem_docVersionsAt.mpr ⟨List.mem_append_right _ (List.mem_singleton.mpr rfl),
        rfl, rfl, le_of_eq hts⟩
    have hp : pickMaxBy (fun x : DocumentLogEntry => x.ts)
        (docVersionsAt ⟨σ.documents ++ [d], σ.indexes, σ.globals⟩ d.tableID d.id T) =
        some d := by
      apply pickMaxBy_unique hd
      · intro x hx
        obtain ⟨-, -, -, hx4⟩ := mem_docVersionsAt.mp hx
        exact hts ▸ hx4
      · intro x hx hxts
        obtain ⟨hx1, hx2, hx3, -⟩ := mem_docVersionsAt.mp hx
        rcases List.mem_append.mp hx1 with hold | hnew
        · exact absurd ⟨hxts, hx2, hx3⟩ (samePKDoc_eq_false.mp (hnd x hold))
        · exact List.mem_singleton.mp hnew
    simp [GetDocument, hp, hdel]
  · intro σ σ' tomb vP T P hwf htdel htts hvmem hvtab hvid hvts hvdel hPT hgap hw
    obtain ⟨hσ', hnd⟩ := write_single_doc_ok hw
    subst hσ'
    constructor
    · -- at at_ts = T the winner is the tombstone, reported as not found
      have htm : tomb ∈ docVersionsAt ⟨σ.documents ++ [tomb], σ.indexes, σ.globals⟩
          tomb.tableID tomb.id T :=
        mem_docVersionsAt.mpr ⟨List.mem_append_right _ (List.mem_singleton.mpr rfl),
          rfl, rfl, le_of_eq htts⟩
      have hp : pickMaxBy (fun x : DocumentLogEntry => x.ts)
          (docVersionsAt ⟨σ.documents ++ [tomb], σ.indexes, σ.globals⟩
            tomb.tableID tomb.id T) = some tomb := by
        apply pickMaxBy_unique htm
        · intro x hx
          obtain ⟨hx1, hx2, hx3, hx4⟩ := mem_docVersionsAt.mp hx
          exact htts ▸ hx4
        · intro x hx hxts
          obtain ⟨hx1, hx2, hx3, -⟩ := mem_docVersionsAt.mp hx
          rcases List.mem_append.mp hx1 with hold | hnew
          · exact absurd ⟨hxts, hx2, hx3⟩ (samePKDoc_eq_false.mp (hnd x hold))
          · exact List.mem_singleton.mp hnew
      simp [GetDocument, hp, htdel]
    · -- at at_ts = T - 1 the winner is the pre-tombstone live version
      have hvP : vP ∈ docVersionsAt ⟨σ.documents ++ [tomb], σ.indexes, σ.globals⟩
          tomb.tableID tomb.id (T - 1) :=
        mem_docVersionsAt.mpr ⟨List.mem_append_left _ hvmem, hvtab, hvid,
          by omega⟩
      have hold_of_mem : ∀ x ∈ docVersionsAt ⟨σ.documents ++ [tomb], σ.indexes,
          σ.globals⟩ tomb.tableID tomb.id (T - 1), x ∈ σ.documents := by
        intro x hx
        obtain ⟨hx1, -, -, hx4⟩ := mem_docVersionsAt.mp hx
        rcases List.mem_append.mp hx1 with hold | hnew
        · exact hold
        · rw [List.mem_singleton.mp hnew] at hx4 ⊢
          omega
      have hp : pickMaxBy (fun x : DocumentLogEntry => x.ts)
          (docVersionsAt ⟨σ.documents ++ [tomb], σ.indexes, σ.globals⟩
            tomb.tableID tomb.id (T - 1)) = some vP := by
        apply pickMaxBy_unique hvP
        · intro x hx
          have hxold := hold_of_mem x hx
          obtain ⟨-, hx2, hx3, hx4⟩ := mem_docVersionsAt.mp hx
          have := hgap x hxold hx2 hx3
          omega
        · intro x hx hxts
          have hxold := hold_of_mem x hx
          obtain ⟨-, hx2, hx3, -⟩ := mem_docVersionsAt.mp hx
          exact wf_docs_unique hwf hxold hvmem (by omega)
            (hx2.trans hvtab.symm) (hx3.trans hvid.symm)
      simp [GetDocument, hp, hvdel]

/-- The pre-tombstone live version used in the C7 witness. -/
def c7vP : DocumentLogEntry := ⟨100, "bd-1", "issues", some "open", false, none⟩

/-- The tombstone used in the C7 witness. -/
def c7Tomb : DocumentLogEntry := ⟨200, "bd-1", "issues", none, true, some 100⟩

/-- C7 witness: the tombstone law applied to a concrete store with a live
version at ts 100 and a tombstone committed at ts 200. -/
theorem claim_C7_witness :
    GetDocument ⟨[c7vP, c7Tomb], [], []⟩ "issues" "bd-1" (some 200) = none ∧
      GetDocument ⟨[c7vP, c7Tomb], [], []⟩ "issues" "bd-1" (some 199) = some c7vP :=
  claim_C7.2 ⟨[c7vP], [], []⟩ ⟨[c7vP, c7Tomb], [], []⟩ c7Tomb c7vP 200 100
    (by simp [WFDocs]) rfl rfl (by decide) rfl rfl rfl rfl (by decide)
    (by decide) rfl

/-- A one-row store used to instantiate the C1 theorem. -/
def c1wState : State := ⟨[⟨3, "w", "issues", some "y", false, none⟩], [], []⟩

/-- C1 witness: the amended theorem applied to a concrete one-row store. -/
theorem claim_C1_witness :
    GetDocument c1wState "issues" "w" (some 5) =
      some ⟨3, "w", "issues", some "y", false, none⟩ :=
  ((claim_C1 c1wState (by simp [WFDocs, c1wState]) "issues" "w").1 5
    ⟨3, "w", "issues", some "y", false, none⟩).mpr (by decide)

/-- Key comparison in either direction is total. -/
theorem keyLeOrd_total (o : Order) (a b : List Nat) :
    keyLeOrd o a b = true ∨ keyLeOrd o b a = true := by
  cases o
  · exact bytesLe_total a b
  · exact bytesLe_total b a

/-- Key comparison in either direction is transitive. -/
theorem keyLeOrd_trans {o : Order} {a b c : List Nat}
    (h1 : keyLeOrd o a b = true) (h2 : keyLeOrd o b c = true) :
    keyLeOrd o a c = true := by
  cases o
  · exact bytesLe_trans h1 h2
  · exact bytesLe_trans h2 h1

/-- Inserting into the sort keeps exactly the old rows plus the new one. -/
theorem mem_insertRow {o : Order} {x a : ScanRow} {l : List ScanRow} :
    a ∈ insertRow o x l ↔ a = x ∨ a ∈ l := by
  induction l with
  | nil => simp [insertRow]
  | cons y ys ih =>
    simp only [insertRow]
    by_cases h : keyLeOrd o x.key y.key = true
    · rw [if_pos h]
      simp [List.mem_cons]
    · rw [if_neg h]
      simp only [List.mem_cons, ih]
      tauto

/-- The sort keeps exactly the rows it is given. -/
theorem mem_sortRows {o : Order} {a : ScanRow} {l : List ScanRow} :
    a ∈ sortRows o l ↔ a ∈ l := by
  induction l with
  | nil => simp [sortRows]
  | cons y ys ih =>
    show a ∈ insertRow o y (sortRows o ys) ↔ _
    rw [mem_insertRow]
    simp [ih]

/-- Inserting into a key-sorted row list keeps it key-sorted. -/
theorem pairwise_insertRow {o : Order} {x : ScanRow} {l : List ScanRow}
    (hl : List.Pairwise (fun a b => keyLeOrd o a.key b.key = true) l) :
    List.Pairwise (fun a b => keyLeOrd o a.key b.key = true) (insertRow o x l) := by
  induction l with
  | nil => simp [insertRow]
  | cons y ys ih =>
    rcases List.pairwise_cons.mp hl with ⟨hy, hys⟩
    simp only [insertRow]
    by_cases h : keyLeOrd o x.key y.key = true
    · rw [if_pos h]
      refine List.pairwise_cons.mpr ⟨?_, hl⟩
      intro z hz
      rcases List.mem_cons.mp hz with rfl | hz'
      · exact h
      · exact keyLeOrd_trans h (hy z hz')
    · rw [if_neg h]
      refine List.pairwise_cons.mpr ⟨?_, ih hys⟩
      intro z hz
      rcases mem_insertRow.mp hz with heq | hz'
      · rw [heq]
        rcases keyLeOrd_total o x.key y.key with h' | h'
        · exact absurd h' h
        · exact h'
      · exact hy z hz'

/-- The scan's sort produces a list ordered by key in the requested
direction. -/
theorem pairwise_sortRows (o : Order) (l : List ScanRow) :
    List.Pairwise (fun a b => keyLeOrd o a.key b.key = true) (sortRows o l) := by
  induction l with
  | nil => simp [sortRows]
  | cons y ys ih => exact pairwise_insertRow ih

/-- A hit of the shared latest-non-deleted subquery is a live version of
the requested document at or before the read timestamp, and it is a fixed
point: the subquery for its own coordinates returns it again. -/
theorem latestLiveDoc_self {σ : State} {t i : String} {ts : Int}
    {d : DocumentLogEntry} (h : latestLiveDoc σ t i ts = some d) :
    d.tableID = t ∧ d.id = i ∧ d.deleted = false ∧ d.ts ≤ ts ∧ d ∈ σ.documents ∧
      latestLiveDoc σ d.tableID d.id ts = some d := by
  have hm : d ∈ σ.documents.filter fun x =>
      decide (x.tableID = t) && decide (x.id = i) && decide (x.ts ≤ ts) &&
        !x.deleted := pickMaxBy_mem h
  rw [List.mem_filter] at hm
  obtain ⟨hmem, hprops⟩ := hm
  simp only [Bool.and_eq_true, decide_eq_true_eq, Bool.not_eq_true'] at hprops
  obtain ⟨⟨⟨htab, hid⟩, hts⟩, hdel⟩ := hprops
  refine ⟨htab, hid, hdel, hts, hmem, ?_⟩
  rw [htab, hid]
  exact h

/-- Every row of `scanRows` resolves through `latestLiveDoc`. -/
theorem scanRows_doc {σ : State} {indexID : String} {intv : Interval}
    {readTS : Int} {row : ScanRow}
    (h : row ∈ scanRows σ indexID intv readTS) :
    ∃ w : IndexEntry, w.deleted = false ∧
      latestLiveDoc σ w.tableID w.documentID readTS = some row.doc := by
  rw [scanRows, List.mem_filterMap] at h
  obtain ⟨k, -, hf⟩ := h
  cases hw : winnerFor (matchingIdx σ indexID intv readTS) k with
  | none => rw [hw] at hf; cases hf
  | some w =>
    rw [hw] at hf
    dsimp only at hf
    cases hwd : w.deleted with
    | true => rw [hwd] at hf; simp at hf
    | false =>
      rw [hwd] at hf
      simp only [Bool.false_eq_true, if_false] at hf
      cases hld : latestLiveDoc σ w.tableID w.documentID readTS with
      | none => rw [hld] at hf; cases hf
      | some d =>
        rw [hld] at hf
        dsimp only at hf
        cases hf
        exact ⟨w, hwd, hld⟩

/-- C2 (amended): index_scan and index_get resolve each surviving index
entry by looking up the latest NON-deleted document version at or before
read_ts for its back-pointer (the MAX subquery excludes tombstones), and
drop the entry only when no such non-deleted version exists; consequently
every returned document is itself live, but a document whose latest
visible version at read_ts is a tombstone can still appear in the results
through its most recent earlier live version. -/
theorem claim_C2 :
    (∀ (σ : State) (indexID : String) (intv : Interval) (readTS : Int)
      (o : Order) (lim : Nat), ∀ r ∈ IndexScan σ indexID intv readTS o lim,
        ∃ d, r.document = some d ∧ d.deleted = false ∧ d ∈ σ.documents ∧
          d.ts ≤ readTS ∧ latestLiveDoc σ d.tableID d.id readTS = some d) ∧
    (∀ (σ : State) (indexID : String) (key : List Nat) (readTS : Int)
      (d : DocumentLogEntry), IndexGet σ indexID key readTS = some d →
        d.deleted = false ∧ d ∈ σ.documents ∧ d.ts ≤ readTS ∧
          latestLiveDoc σ d.tableID d.id readTS = some d) := by
  constructor
  · intro σ indexID intv readTS o lim r hr
    rw [IndexScan] at hr
    obtain ⟨row, hrow, rfl⟩ := List.mem_map.mp hr
    have hrow' : row ∈ scanRows σ indexID intv readTS :=
      mem_sortRows.mp (List.mem_of_mem_take hrow)
    obtain ⟨w, -, hld⟩ := scanRows_doc hrow'
    obtain ⟨-, -, hdel, hts, hmem, hfix⟩ := latestLiveDoc_self hld
    exact ⟨row.doc, rfl, hdel, hmem, hts, hfix⟩
  · intro σ indexID key readTS d h
    rw [IndexGet] at h
    cases hw : pickMaxBy (fun x : IndexEntry => x.ts)
        (σ.indexes.filter fun e =>
          decide (e.indexID = indexID) && decide (e.key = key) &&
            decide (e.ts ≤ readTS)) with
    | none => rw [hw] at h; cases h
    | some w =>
      rw [hw] at h
      dsimp only at h
      cases hwd : w.deleted with
      | true => rw [hwd] at h; simp at h
      | false =>
        rw [hwd] at h
        simp only [Bool.false_eq_true, if_false] at h
        obtain ⟨-, -, hdel, hts, hmem, hfix⟩ := latestLiveDoc_self h
        exact ⟨hdel, hmem, hts, hfix⟩

/-- The live version at ts 1 of the document both C2 stores reference. -/
def c2Live : DocumentLogEntry := ⟨1, "a", "issues", some "v", false, none⟩

/-- A tombstone at ts 2 shadowing `c2Live` in the documents log. -/
def c2Tomb : DocumentLogEntry := ⟨2, "a", "issues", none, true, some 1⟩

/-- A live index entry pointing at the document. -/
def c2Entry : IndexEntry := ⟨"idx", 1, [7], false, "issues", "a"⟩

/-- A store whose document's latest version at read_ts 3 is a tombstone
while its index entry is still live. -/
def c2State : State := ⟨[c2Live, c2Tomb], [c2Entry], []⟩

/-- C2 counterexample: at read_ts 3 the latest document version
(tombstones included) for the scanned entry's back-pointer is the
tombstone at ts 2, so the claim demands that the entry be dropped and the
document never appear; yet both index_scan and index_get return the older
live version, because the SQL MAX subquery skips tombstones. -/
theorem claim_C2_counterexample :
    pickMaxBy (fun x : DocumentLogEntry => x.ts)
        (docVersionsAt c2State "issues" "a" 3) = some c2Tomb ∧
    c2Tomb.deleted = true ∧
    IndexScan c2State "idx" AllKeys 3 Order.Asc 10 = [⟨[], some c2Live⟩] ∧
    IndexGet c2State "idx" [7] 3 = some c2Live := by decide

/-- A store with a single live document and live index entry for the C2
witness. -/
def c2wDoc : DocumentLogEntry := ⟨1, "a", "issues", some "v", false, none⟩

/-- The C2 witness store. -/
def c2wState : State := ⟨[c2wDoc], [⟨"idx", 1, [7], false, "issues", "a"⟩], []⟩

/-- C2 witness: the amended theorem applied to the one-result scan of the
concrete store. -/
theorem claim_C2_witness :
    ∃ d, (⟨[], some c2wDoc⟩ : IndexResult).document = some d ∧
      d.deleted = false ∧ d ∈ c2wState.documents ∧ d.ts ≤ 5 ∧
      latestLiveDoc c2wState d.tableID d.id 5 = some d :=
  claim_C2.1 c2wState "idx" AllKeys 5 Order.Asc 10 ⟨[], some c2wDoc⟩ (by decide)

/-- C6 (amended): index_scan returns at most `limit` results, produced in
the requested ascending or descending byte-lexicographic key order of the
surviving entries, each carrying the latest live document resolved for its
key — but the `Key` field of every returned result is left empty (the Go
loop never populates it), so results do not carry the matched key. -/
theorem claim_C6 :
    ∀ (σ : State) (indexID : String) (intv : Interval) (readTS : Int)
      (o : Order) (lim : Nat),
      (IndexScan σ indexID intv readTS o lim).length ≤ lim ∧
      List.Pairwise (fun a b => keyLeOrd o a.key b.key = true)
        (sortRows o (scanRows σ indexID intv readTS)) ∧
      IndexScan σ indexID intv readTS o lim =
        ((sortRows o (scanRows σ indexID intv readTS)).take lim).map
          (fun row => ⟨[], some row.doc⟩) ∧
      ∀ r ∈ IndexScan σ indexID intv readTS o lim, r.key = [] := by
  intro σ indexID intv readTS o lim
  refine ⟨?_, pairwise_sortRows o _, rfl, ?_⟩
  · rw [IndexScan, List.length_map]
    exact List.length_take_le _ _
  · intro r hr
    obtain ⟨row, -, rfl⟩ := List.mem_map.mp (by rw [IndexScan] at hr; exact hr)
    rfl

/-- The single live document of the C6 counterexample store. -/
def c6Doc : DocumentLogEntry := ⟨1, "a", "issues", some "v", false, none⟩

/-- A store whose only index entry has the non-empty key [42]. -/
def c6State : State := ⟨[c6Doc], [⟨"i6", 1, [42], false, "issues", "a"⟩], []⟩

/-- C6 counterexample: the scan's only possible matched key is [42], yet
the returned result's `Key` field is the empty byte string — results do
not carry the index key that matched, refuting the claim. -/
theorem claim_C6_counterexample :
    IndexScan c6State "i6" AllKeys 5 Order.Asc 3 = [⟨[], some c6Doc⟩] ∧
    (∀ e ∈ c6State.indexes, e.key = [42]) ∧
    ([] : List Nat) ≠ [42] := by decide

/-- The single live document of the C6 witness store. -/
def c6wDoc : DocumentLogEntry := ⟨1, "b", "issues", some "w", false, none⟩

/-- The C6 witness store. -/
def c6wState : State := ⟨[c6wDoc], [⟨"i6", 1, [9], false, "issues", "b"⟩], []⟩

/-- C6 witness: the amended theorem applied to a concrete scan — the
result count is bounded by the limit and the returned result's Key field
is empty. -/
theorem claim_C6_witness :
    (IndexScan c6wState "i6" AllKeys 5 Order.Asc 3).length ≤ 3 ∧
      (⟨[], some c6wDoc⟩ : IndexResult).key = [] :=
  ⟨(claim_C6 c6wState "i6" AllKeys 5 Order.Asc 3).1,
    (claim_C6 c6wState "i6" AllKeys 5 Order.Asc 3).2.2.2 ⟨[], some c6wDoc⟩
      (by decide)⟩

/-- C4: for every non-empty byte string `p` (and any candidate byte
string `s`), the interval produced by the prefix constructor contains `s`
exactly when `p` is a leading fragment of `s`; the empty input yields the
all-keys interval, an all-0xFF input yields an interval unbounded above,
and the successor increments the rightmost byte below 0xFF, dropping the
bytes to its right. -/
theorem claim_C4 :
    (∀ p s : List Nat, p ≠ [] → (∀ x ∈ p, x ≤ 255) → (∀ x ∈ s, x ≤ 255) →
      (inInterval (PrefixInterval p) s = true ↔ ∃ t, s = p ++ t)) ∧
    PrefixInterval [] = AllKeys ∧
    PrefixInterval [255, 255, 255] = ⟨some [255, 255, 255], none⟩ ∧
    PrefixInterval [1, 255] = ⟨some [1, 255], some [2]⟩ := by
  refine ⟨?_, by decide, by decide, by decide⟩
  intro p s hne hp hs
  have heq : inInterval (PrefixInterval p) s =
      (bytesLe p s && belowStop (succBytes p) s) := by
    rw [show PrefixInterval p = ⟨some p, succBytes p⟩ from by
      simp [PrefixInterval, hne]]
    cases hq : succBytes p <;> simp [inInterval, belowStop]
  rw [heq]
  exact succBytes_spec p s hne hp hs

/-- C4 witness: the membership law applied to the all-0xFF prefix and a
concrete extension of it. -/
theorem claim_C4_witness :
    inInterval (PrefixInterval [255, 255, 255]) [255, 255, 255, 7] = true ↔
      ∃ t, [255, 255, 255, 7] = [255, 255, 255] ++ t :=
  claim_C4.1 [255, 255, 255] [255, 255, 255, 7] (by decide) (by decide) (by decide)

end Beads
